import Mathlib

/-!
Verification of the AncestryFlow layout engine.

The repository contains two near-duplicate copies of the tree layout
engine:

* variant 1 (`src/components/TreeVisualization.tsx`): `assignGen`
  returns early for already-processed ids (first assignment wins),
  rows are placed left-aligned starting at `padding`, and the canvas
  bounding box is accumulated from the placed slots;
* variant 2 (the second `TreeVisualization` component stored in
  `src/components/FamilyNode.tsx`): `assignGen` raises the stored
  generation of an already-processed id to the maximum of the stored
  and the newly carried value (without re-propagating), and each row
  is centered on the container midline `width / 2`.

Both variants are embedded below, suffixed `1` and `2`.  Mutable
traversal state (the `generations` record and the `processed` set)
is threaded explicitly as a `GenState`.  Recursion is bounded by a
fuel parameter; the fuel supplied by the top-level entry points is
one more than the number of ids occurring in the input, which is
shown sufficient where the theorems need it.
-/

/-- A family member record, restricted to the fields the layout engine
reads: `id`, `gender` (compared against the literals "male"/"female"),
`parents` and `partners` (lists of ids; an absent list in the source is
the empty list here). -/
structure Member where
  id : String
  gender : Option String := none
  parents : List String := []
  partners : List String := []
  deriving DecidableEq

/-- Traversal state of generation assignment: the `generations` record
(person id to generation index) and the `processed` set. -/
structure GenState where
  generations : String → Option Nat
  processed : String → Bool

/-- The initial traversal state: empty record, empty set. -/
def GenState.init : GenState :=
  ⟨fun _ => none, fun _ => false⟩

/-- `members.find(m => m.id === id)`. -/
def findMember (members : List Member) (id : String) : Option Member :=
  members.find? (fun m => m.id = id)

/-- `members.filter(m => m.parents?.includes(id))`. -/
def childrenOf (members : List Member) (id : String) : List Member :=
  members.filter (fun m => m.parents.contains id)

/-- Insert an id into the generations record. -/
def GenState.setGen (st : GenState) (id : String) (gen : Nat) : GenState :=
  ⟨fun x => if x = id then some gen else st.generations x, st.processed⟩

/-- Insert an id into the processed set. -/
def GenState.markProcessed (st : GenState) (id : String) : GenState :=
  ⟨st.generations, fun x => x = id || st.processed x⟩

/-- Variant 1 of `assignGen` (TreeVisualization.tsx lines 41-52):

```
const assignGen = (id, gen) => {
  if (!id || processed.has(id)) return;
  generations[id] = gen;
  processed.add(id);
  const member = members.find(m => m.id === id);
  if (member) {
    const children = members.filter(m => m.parents?.includes(id));
    children.forEach(c => assignGen(c.id, gen + 1));
    member.partners?.forEach(pId => assignGen(pId, gen));
  }
};
```

The `!id` guard (a falsy id string) is modelled as the test `id = ""`.
Recursion is bounded by the fuel argument. -/
def assignGen1 (members : List Member) : Nat → GenState → String → Nat → GenState
  | 0, st, _, _ => st
  | fuel + 1, st, id, gen =>
    if id = "" ∨ st.processed id then st
    else
      let st1 := (st.setGen id gen).markProcessed id
      match findMember members id with
      | none => st1
      | some member =>
        let st2 := (childrenOf members id).foldl
          (fun s c => assignGen1 members fuel s c.id (gen + 1)) st1
        member.partners.foldl
          (fun s p => assignGen1 members fuel s p gen) st2

/-- Variant 2 of `assignGen` (FamilyNode.tsx lines 96-110):

```
const assignGen = (id, gen) => {
  if (processed.has(id)) {
    if (generations[id] < gen) generations[id] = gen;
    return;
  }
  generations[id] = gen;
  processed.add(id);
  ...same recursion as variant 1...
};
```

When `generations[id]` is absent the JavaScript comparison
`undefined < gen` is false and nothing is written; this is the `none`
branch. -/
def assignGen2 (members : List Member) : Nat → GenState → String → Nat → GenState
  | 0, st, _, _ => st
  | fuel + 1, st, id, gen =>
    if st.processed id then
      match st.generations id with
      | some v => if v < gen then st.setGen id gen else st
      | none => st
    else
      let st1 := (st.setGen id gen).markProcessed id
      match findMember members id with
      | none => st1
      | some member =>
        let st2 := (childrenOf members id).foldl
          (fun s c => assignGen2 members fuel s c.id (gen + 1)) st1
        member.partners.foldl
          (fun s p => assignGen2 members fuel s p gen) st2

/-- All ids that the traversal can ever be invoked on: member ids and
every id occurring in a partners list. -/
def universeIds (members : List Member) : List String :=
  members.map (fun m => m.id) ++ members.flatMap (fun m => m.partners)

/-- Fuel supplied to the traversal: strictly more than the number of
distinct ids it can visit, so recursion never exhausts it. -/
def fuelFor (members : List Member) : Nat :=
  (universeIds members).length + 1

/-- `members.filter(m => !m.parents || m.parents.length === 0)`. -/
def rootsOf (members : List Member) : List Member :=
  members.filter (fun m => m.parents.isEmpty)

/-- Top-level generation assignment, variant 1
(TreeVisualization.tsx lines 54-56): the root pass followed by the
orphan sweep. -/
def assignGenerations1 (members : List Member) : GenState :=
  let st := (rootsOf members).foldl
    (fun s r => assignGen1 members (fuelFor members) s r.id 0) GenState.init
  members.foldl
    (fun s m => if s.processed m.id then s
                else assignGen1 members (fuelFor members) s m.id 0) st

/-- Top-level generation assignment, variant 2
(FamilyNode.tsx lines 112-114). -/
def assignGenerations2 (members : List Member) : GenState :=
  let st := (rootsOf members).foldl
    (fun s r => assignGen2 members (fuelFor members) s r.id 0) GenState.init
  members.foldl
    (fun s m => if s.processed m.id then s
                else assignGen2 members (fuelFor members) s m.id 0) st

/-! ## Spatial layout -/

/-- Variant 1 layout constants (TreeVisualization.tsx lines 32-36). -/
def nodeWidth1 : Nat := 240
def nodeHeight1 : Nat := 120
def verticalGap1 : Nat := 200
def horizontalGap1 : Nat := 80
def padding1 : Nat := 120

/-- Variant 2 layout constants (FamilyNode.tsx lines 87-90). -/
def nodeWidth2 : Nat := 230
def nodeHeight2 : Nat := 100
def verticalGap2 : Nat := 180
def horizontalGap2 : Nat := 50

/-- The generation a member is bucketed under:
`generations[m.id] ?? 0` (variant 1; variant 2 writes `|| 0`, which
agrees on natural numbers because the only falsy number produced is 0). -/
def genOf (g : GenState) (id : String) : Nat :=
  (g.generations id).getD 0

/-- The bucket of a generation: ids of the members assigned that
generation, in input order (`genGroups[gen].push(m.id)`). -/
def groupOf (members : List Member) (g : GenState) (gen : Nat) : List String :=
  (members.filter (fun m => genOf g m.id = gen)).map (fun m => m.id)

/-- Row ordering with partner pairing (identical in both variants,
TreeVisualization.tsx lines 72-94): members are processed in input
order; an unplaced member with a same-row partner is pushed as a pair,
male first when the member is female and the chosen partner male;
both pair members are marked visited, but the push itself does not
re-check whether the chosen partner was already placed. -/
def partnersInRowOf (members : List Member) (idsInGen : List String)
    (id : String) : List String :=
  match findMember members id with
  | none => []
  | some m => m.partners.filter (fun q => idsInGen.contains q)

/-- The pairing placement order (`male` first when the member is
`female` and the chosen partner `male`, member first otherwise). -/
def pairOf (members : List Member) (id partnerId : String) : List String :=
  if (findMember members id).map (fun m => m.gender) = some (some "female") ∧
     (findMember members partnerId).map (fun m => m.gender) = some (some "male")
  then [partnerId, id] else [id, partnerId]

def sortRowStep (members : List Member) (idsInGen : List String)
    (p : List String × (String → Bool)) (id : String) :
    List String × (String → Bool) :=
  if p.2 id then p
  else
    match partnersInRowOf members idsInGen id with
    | [] => (p.1 ++ [id], fun x => x = id || p.2 x)
    | partnerId :: _ =>
      (p.1 ++ pairOf members id partnerId,
       fun x => x = id || (x = partnerId || p.2 x))

/-- The ordered slot sequence of one row. -/
def sortRow (members : List Member) (idsInGen : List String) : List String :=
  (idsInGen.foldl (sortRowStep members idsInGen) ([], fun _ => false)).1

/-- The largest generation value any member is bucketed under. -/
def maxGenOf (members : List Member) (g : GenState) : Nat :=
  (members.map (fun m => genOf g m.id)).foldl max 0

/-- The rows of the layout, as (generation, slot sequence) pairs in
ascending generation order.  The source iterates the present keys of
`genGroups` (JavaScript enumerates integer-like keys ascending); this
is rendered here by scanning generations 0..max and keeping the
non-empty buckets. -/
def rowsOf (members : List Member) (g : GenState) : List (Nat × List String) :=
  (List.range (maxGenOf members g + 1)).filterMap (fun gen =>
    let ids := groupOf members g gen
    if ids.isEmpty then none else some (gen, sortRow members ids))

/-- Variant 1 slot coordinates (TreeVisualization.tsx lines 96-99):
`x = padding + index * (nodeWidth + horizontalGap)`,
`y = padding + gen * verticalGap`. -/
def slotX1 (index : Nat) : Nat :=
  padding1 + index * (nodeWidth1 + horizontalGap1)

def rowY1 (gen : Nat) : Nat :=
  padding1 + gen * verticalGap1

/-- The full layout result of variant 1. -/
structure Layout1 where
  positions : String → Option (Nat × Nat)
  maxWidth : Nat
  maxHeight : Nat

/-- Place one row of variant 1 into the accumulated layout:
each slot writes its position (later writes win) and extends the
bounding box by `x + nodeWidth + padding` / `y + nodeHeight + padding`. -/
def placeRow1 (acc : Layout1) (row : Nat × List String) : Layout1 :=
  (row.2.enum.foldl (fun (a : Layout1) (slot : Nat × String) =>
    let x := slotX1 slot.1
    let y := rowY1 row.1
    ⟨fun q => if q = slot.2 then some (x, y) else a.positions q,
     max a.maxWidth (x + nodeWidth1 + padding1),
     max a.maxHeight (y + nodeHeight1 + padding1)⟩) acc)

/-- Variant 1 spatial layout (TreeVisualization.tsx lines 58-103). -/
def computeLayout1 (members : List Member) : Layout1 :=
  let g := assignGenerations1 members
  (rowsOf members g).foldl placeRow1 ⟨fun _ => none, 0, 0⟩

/-- Variant 2 row width for `n` slots (FamilyNode.tsx line 157):
`n * (nodeWidth + horizontalGap) - horizontalGap`, as a rational since
the centering division below is float division in the source. -/
def rowWidth2 (n : Nat) : ℚ :=
  n * ((nodeWidth2 : ℚ) + horizontalGap2) - horizontalGap2

/-- Variant 2 slot x-coordinate (FamilyNode.tsx lines 158-162):
`startX = (width - rowWidth) / 2`, `x = startX + index * (nodeWidth +
horizontalGap)`. -/
def slotX2 (width : ℚ) (n index : Nat) : ℚ :=
  (width - rowWidth2 n) / 2 + index * ((nodeWidth2 : ℚ) + horizontalGap2)

/-- Variant 2 row y-coordinate (FamilyNode.tsx line 163):
`y = 80 + gen * verticalGap`. -/
def rowY2 (gen : Nat) : ℚ :=
  80 + gen * (verticalGap2 : ℚ)

/-- Variant 2 position map (FamilyNode.tsx lines 124-166), parameterized
by the container width. -/
def computePositions2 (members : List Member) (width : ℚ) :
    String → Option (ℚ × ℚ) :=
  let g := assignGenerations2 members
  (rowsOf members g).foldl (fun acc row =>
    row.2.enum.foldl (fun (a : String → Option (ℚ × ℚ)) (slot : Nat × String) =>
      fun q => if q = slot.2 then
        some (slotX2 width row.2.length slot.1, rowY2 row.1) else a q) acc)
    (fun _ => none)

/-! ## Partner connectors (variant 1) -/

/-- One emitted partner connector.  The source appends an SVG line
carrying only the four coordinates; the two ids it was emitted for are
recorded alongside so theorems can name the pair. -/
structure Connector where
  a : String
  b : String
  x1 : Nat
  y1 : Nat
  x2 : Nat
  y2 : Nat
  deriving DecidableEq

/-- The connectors emitted while visiting one member (paired with its
input index) of the connector loop (TreeVisualization.tsx lines
113-129): for a member with a position, each listed partner id with a
position yields a line from the member's right edge mid-height to the
partner's left edge mid-height, guarded by
`indexOf(m) < indexOf(find(partner))`. -/
def memberConnectors1 (members : List Member)
    (pos : String → Option (Nat × Nat)) (p : Nat × Member) : List Connector :=
  match pos p.2.id with
  | none => []
  | some mp =>
    p.2.partners.filterMap (fun pId =>
      match pos pId with
      | none => none
      | some pp =>
        if p.1 < members.findIdx (fun x => x.id = pId) then
          some ⟨p.2.id, pId, mp.1 + nodeWidth1, mp.2 + nodeHeight1 / 2,
                pp.1, pp.2 + nodeHeight1 / 2⟩
        else none)

/-- Partner connector derivation, variant 1: the concatenation of each
member's emissions, in input order. -/
def partnerConnectors1 (members : List Member) : List Connector :=
  (members.enum.map
    (memberConnectors1 members (computeLayout1 members).positions)).flatten

/-! ## Verification infrastructure definitions -/

/-- The number of universe ids not yet processed: the measure showing
the traversal fuel sufficient. -/
def measureOf (members : List Member) (st : GenState) : Nat :=
  ((universeIds members).dedup.filter (fun x => ! st.processed x)).length

/-- The invariant carried through the traversal on forest-shaped
inputs (no partners, at most one parent each, a depth function `d`):
every processed member's recorded generation is its depth, and every
processed member not in the in-flight set `X` has all its children
processed. -/
def forestInv (members : List Member) (d : String → Nat) (X : String → Prop)
    (st : GenState) : Prop :=
  (∀ m ∈ members, st.processed m.id = true →
    st.generations m.id = some (d m.id)) ∧
  (∀ m ∈ members, st.processed m.id = true → ¬ X m.id →
    ∀ c ∈ childrenOf members m.id, st.processed c.id = true)

/-! ## Concrete inputs used by counterexamples and witnesses -/

/-- Two root candidates `P2` and `G`, `P1` a child of `G`, and `C` a
child of both `P1` (depth 1) and `P2` (depth 0).  The root pass reaches
`C` through `P2` first, so `C` keeps generation 1 even though the path
through `P1` carries 2. -/
def twoDepthParents : List Member :=
  [{ id := "P2" }, { id := "C", parents := ["P1", "P2"] },
   { id := "G" }, { id := "P1", parents := ["G"] }]

/-- Root `C0` lists `B` as partner; `B` is the child of root `A`.
`C0`'s traversal reaches `B` as a partner at generation 0 before `A`
propagates, so `B` ends at generation 0 together with its parent. -/
def partnerBeforeParent : List Member :=
  [{ id := "C0", partners := ["B"] }, { id := "A" },
   { id := "B", parents := ["A"] }]

/-- A single member whose id is the empty string: the `!id` guard of
variant 1 drops it, so it never receives a generation entry. -/
def emptyIdMember : List Member :=
  [{ id := "" }]

/-- Two root candidates and one child: generation 0 has two slots,
generation 1 has one. -/
def twoRootsOneChild : List Member :=
  [{ id := "P1" }, { id := "P2" }, { id := "C", parents := ["P1"] }]

/-- `B` placed alone first (it lists no partner), then `A` pairs with
`B` again: `B` occupies two slots of the row. -/
def asymmetricPartner : List Member :=
  [{ id := "B" }, { id := "A", partners := ["B"] }]

/-- Only the input-later member `B` lists the earlier `A` as partner;
the `indexOf(m) < indexOf(partner)` guard then rejects the only
candidate emission, so no connector is drawn. -/
def laterListsEarlier : List Member :=
  [{ id := "A" }, { id := "B", partners := ["A"] }]

/-- Root `B` with child `X`; `X` lists the parentless `A` as partner,
so `A` is reached at generation 1 before its own root-seeded traversal
runs. -/
def partnerOfDeeper : List Member :=
  [{ id := "B" }, { id := "X", parents := ["B"], partners := ["A"] },
   { id := "A" }]

/-- A simple parent/child pair. -/
def parentChildPair : List Member :=
  [{ id := "P" }, { id := "C", parents := ["P"] }]

/-- Two parentless members listing each other as partners. -/
def mutualPartners : List Member :=
  [{ id := "A", partners := ["B"] }, { id := "B", partners := ["A"] }]

/-- Root `R` with child `B`; the parentless `A` lists `B` as partner
but `B` does not list `A` back.  `B` is fixed at generation 1 via `R`
before `A`'s traversal reaches it, and when `A` (generation 0) later
follows the partner edge, the already-processed check skips any
equalization: the partners end up at different generations. -/
def partnerMismatch : List Member :=
  [{ id := "R" }, { id := "B", parents := ["R"] },
   { id := "A", partners := ["B"] }]

section Sanity

example :
    (assignGenerations1 [{ id := "P" }, { id := "C", parents := ["P"] }]).generations "C"
      = some 1 := by decide

example :
    (assignGenerations1 [{ id := "P" }, { id := "C", parents := ["P"] }]).generations "P"
      = some 0 := by decide

example :
    (computeLayout1 [{ id := "P" }, { id := "C", parents := ["P"] }]).positions "C"
      = some (120, 320) := by decide

example :
    (computeLayout1 [{ id := "P" }]).maxWidth = 480 := by decide

example :
    partnerConnectors1 [{ id := "A", partners := ["B"] }, { id := "B", partners := ["A"] }]
      = [⟨"A", "B", 360, 180, 440, 180⟩] := by decide

end Sanity

/-! ## Generic fold helpers -/

theorem foldlPreserve {σ α : Type} (f : σ → α → σ) (P : σ → Prop) :
    ∀ (l : List α) (s : σ), P s → (∀ t a, a ∈ l → P t → P (f t a)) →
      P (l.foldl f s) := by
  intro l
  induction l with
  | nil => intro s hs _; exact hs
  | cons h t ih =>
    intro s hs hstep
    exact ih (f s h) (hstep s h (List.mem_cons_self h t) hs)
      (fun t1 a ha => hstep t1 a (List.mem_cons_of_mem h ha))

theorem foldlReach {σ α : Type} (f : σ → α → σ) (P Q : σ → Prop) :
    ∀ (l : List α) (a : α) (s : σ), a ∈ l → Q s →
      (∀ t b, b ∈ l → Q t → Q (f t b)) →
      (∀ t, Q t → P (f t a)) →
      (∀ t b, b ∈ l → P t → P (f t b)) →
      P (l.foldl f s) := by
  intro l
  induction l with
  | nil => intro a s ha; exact absurd ha (List.not_mem_nil a)
  | cons h t ih =>
    intro a s ha hq hqstep hest hpstep
    rcases List.mem_cons.mp ha with he | ht
    · subst he
      exact foldlPreserve f P t (f s a) (hest s hq)
        (fun t1 b hb => hpstep t1 b (List.mem_cons_of_mem _ hb))
    · exact ih a (f s h) ht (hqstep s h (List.mem_cons_self h t) hq)
        (fun t1 b hb => hqstep t1 b (List.mem_cons_of_mem _ hb)) hest
        (fun t1 b hb => hpstep t1 b (List.mem_cons_of_mem _ hb))

/-! ## Basic traversal invariants of variant 1 -/

/-- Once a person is processed, variant 1 never revisits them: their
processed flag and recorded generation survive any further traversal. -/
theorem assignGen1Frozen (members : List Member) :
    ∀ (fuel : Nat) (st : GenState) (id : String) (gen : Nat) (x : String),
      st.processed x = true →
      (assignGen1 members fuel st id gen).processed x = true ∧
      (assignGen1 members fuel st id gen).generations x = st.generations x := by
  intro fuel
  induction fuel with
  | zero => intro st id gen x hx; exact ⟨hx, rfl⟩
  | succ n ih =>
    intro st id gen x hx
    by_cases hguard : id = "" ∨ st.processed id = true
    · simp only [assignGen1, decide_eq_true_eq]
      rw [if_pos]
      · exact ⟨hx, rfl⟩
      · simpa using hguard
    · have hxid : x ≠ id := by
        intro he
        exact hguard (Or.inr (he ▸ hx))
      have hP1 : ((st.setGen id gen).markProcessed id).processed x = true ∧
          ((st.setGen id gen).markProcessed id).generations x = st.generations x := by
        constructor
        · simp [GenState.markProcessed, GenState.setGen, hx]
        · simp [GenState.markProcessed, GenState.setGen, hxid]
      simp only [assignGen1, decide_eq_true_eq]
      rw [if_neg (by simpa using hguard)]
      cases hm : findMember members id with
      | none => exact hP1
      | some member =>
        have hmid : ∀ (l : List Member) (g0 : Nat) (t : GenState),
            t.processed x = true ∧ t.generations x = st.generations x →
            (l.foldl (fun s c => assignGen1 members n s c.id g0) t).processed x = true ∧
            (l.foldl (fun s c => assignGen1 members n s c.id g0) t).generations x
              = st.generations x := by
          intro l g0 t ht
          refine foldlPreserve _
            (fun t1 => t1.processed x = true ∧ t1.generations x = st.generations x)
            l t ht ?_
          intro t1 c _ ht1
          obtain ⟨hp, hg⟩ := ih t1 c.id g0 x ht1.1
          exact ⟨hp, hg.trans ht1.2⟩
        have h2 := hmid (childrenOf members id) (gen + 1)
          ((st.setGen id gen).markProcessed id) hP1
        have hpart : ∀ (l : List String) (t : GenState),
            t.processed x = true ∧ t.generations x = st.generations x →
            (l.foldl (fun s p => assignGen1 members n s p gen) t).processed x = true ∧
            (l.foldl (fun s p => assignGen1 members n s p gen) t).generations x
              = st.generations x := by
          intro l t ht
          refine foldlPreserve _
            (fun t1 => t1.processed x = true ∧ t1.generations x = st.generations x)
            l t ht ?_
          intro t1 p _ ht1
          obtain ⟨hp, hg⟩ := ih t1 p gen x ht1.1
          exact ⟨hp, hg.trans ht1.2⟩
        exact hpart member.partners _ h2

/-- With at least one unit of fuel, a call on a nonempty id leaves that
id processed. -/
theorem assignGen1Marks (members : List Member) (n : Nat) (st : GenState)
    (id : String) (gen : Nat) (hid : id ≠ "") :
    (assignGen1 members (n + 1) st id gen).processed id = true := by
  by_cases hguard : id = "" ∨ st.processed id = true
  · have hp : st.processed id = true := by
      rcases hguard with h | h
      · exact absurd h hid
      · exact h
    simp only [assignGen1, decide_eq_true_eq]
    rw [if_pos (by simpa using hguard)]
    exact hp
  · simp only [assignGen1, decide_eq_true_eq]
    rw [if_neg (by simpa using hguard)]
    have hP1 : ((st.setGen id gen).markProcessed id).processed id = true := by
      simp [GenState.markProcessed, GenState.setGen]
    cases hm : findMember members id with
    | none => exact hP1
    | some member =>
      have h2 := foldlPreserve (fun s c => assignGen1 members n s c.id (gen + 1))
        (fun t => t.processed id = true) (childrenOf members id) _ hP1
        (fun t c _ ht => (assignGen1Frozen members n t c.id (gen + 1) id ht).1)
      exact foldlPreserve (fun s p => assignGen1 members n s p gen)
        (fun t => t.processed id = true) member.partners _ h2
        (fun t p _ ht => (assignGen1Frozen members n t p gen id ht).1)

/-- `assignGen1Marks` for any positive fuel. -/
theorem assignGen1MarksPos (members : List Member) (fuel : Nat) (st : GenState)
    (id : String) (gen : Nat) (hf : 1 ≤ fuel) (hid : id ≠ "") :
    (assignGen1 members fuel st id gen).processed id = true := by
  obtain ⟨n', rfl⟩ : ∃ n', fuel = n' + 1 := ⟨fuel - 1, by omega⟩
  exact assignGen1Marks members n' st id gen hid

/-- Every processed id has a generation entry (variant 1 preserves
this invariant, and it holds initially). -/
theorem assignGen1Entry (members : List Member) :
    ∀ (fuel : Nat) (st : GenState) (id : String) (gen : Nat),
      (∀ x, st.processed x = true → (st.generations x).isSome = true) →
      ∀ x, (assignGen1 members fuel st id gen).processed x = true →
        ((assignGen1 members fuel st id gen).generations x).isSome = true := by
  intro fuel
  induction fuel with
  | zero => intro st id gen h x; exact h x
  | succ n ih =>
    intro st id gen h x
    by_cases hguard : id = "" ∨ st.processed id = true
    · simp only [assignGen1, decide_eq_true_eq]
      rw [if_pos (by simpa using hguard)]
      exact h x
    · have hP1 : ∀ y, ((st.setGen id gen).markProcessed id).processed y = true →
          (((st.setGen id gen).markProcessed id).generations y).isSome = true := by
        intro y hy
        by_cases hyid : y = id
        · simp [GenState.markProcessed, GenState.setGen, hyid]
        · simp only [GenState.markProcessed, GenState.setGen]
          simp only [GenState.markProcessed, GenState.setGen] at hy
          simp only [hyid, if_false]
          have : st.processed y = true := by
            simpa [hyid] using hy
          exact h y this
      simp only [assignGen1, decide_eq_true_eq]
      rw [if_neg (by simpa using hguard)]
      cases hm : findMember members id with
      | none => exact hP1 x
      | some member =>
        have h2 := foldlPreserve (fun s c => assignGen1 members n s c.id (gen + 1))
          (fun t => ∀ y, t.processed y = true → (t.generations y).isSome = true)
          (childrenOf members id) _ hP1
          (fun t c _ ht => ih t c.id (gen + 1) ht)
        have h3 := foldlPreserve (fun s p => assignGen1 members n s p gen)
          (fun t => ∀ y, t.processed y = true → (t.generations y).isSome = true)
          member.partners _ h2
          (fun t p _ ht => ih t p gen ht)
        exact h3 x

/-- After the full variant-1 pipeline, every member with a nonempty id
is processed. -/
theorem assignGenerations1Processed (members : List Member) :
    ∀ m ∈ members, m.id ≠ "" →
      (assignGenerations1 members).processed m.id = true := by
  intro m hm hid
  show (members.foldl
    (fun (s : GenState) (m1 : Member) =>
      if s.processed m1.id then s
      else assignGen1 members (fuelFor members) s m1.id 0)
    ((rootsOf members).foldl
      (fun (s : GenState) (r : Member) =>
        assignGen1 members (fuelFor members) s r.id 0)
      GenState.init)).processed m.id = true
  refine foldlReach _ (fun (t : GenState) => t.processed m.id = true)
    (fun _ => True) members m _ hm trivial (fun _ _ _ _ => trivial) ?_ ?_
  · intro t _
    by_cases hp : t.processed m.id = true
    · simp [hp]
    · simp only [hp, Bool.false_eq_true, if_false]
      exact assignGen1Marks members (universeIds members).length t m.id 0 hid
  · intro t b _ ht
    by_cases hp : t.processed b.id = true
    · simpa [hp] using ht
    · simp only [hp, Bool.false_eq_true, if_false]
      exact (assignGen1Frozen members (fuelFor members) t b.id 0 m.id ht).1

/-- After the full variant-1 pipeline, every processed id has a
generation entry. -/
theorem assignGenerations1Entry (members : List Member) :
    ∀ x, (assignGenerations1 members).processed x = true →
      ((assignGenerations1 members).generations x).isSome = true := by
  show ∀ x, (members.foldl
    (fun (s : GenState) (m1 : Member) =>
      if s.processed m1.id then s
      else assignGen1 members (fuelFor members) s m1.id 0)
    ((rootsOf members).foldl
      (fun (s : GenState) (r : Member) =>
        assignGen1 members (fuelFor members) s r.id 0)
      GenState.init)).processed x = true →
    ((members.foldl
    (fun (s : GenState) (m1 : Member) =>
      if s.processed m1.id then s
      else assignGen1 members (fuelFor members) s m1.id 0)
    ((rootsOf members).foldl
      (fun (s : GenState) (r : Member) =>
        assignGen1 members (fuelFor members) s r.id 0)
      GenState.init)).generations x).isSome = true
  have hroot := foldlPreserve
    (fun s (r : Member) => assignGen1 members (fuelFor members) s r.id 0)
    (fun t => ∀ y, t.processed y = true → (t.generations y).isSome = true)
    (rootsOf members) GenState.init
    (by intro y hy; simp [GenState.init] at hy)
    (fun t r _ ht => assignGen1Entry members (fuelFor members) t r.id 0 ht)
  exact foldlPreserve
    (fun s m1 => if s.processed m1.id then s
                 else assignGen1 members (fuelFor members) s m1.id 0)
    (fun t => ∀ y, t.processed y = true → (t.generations y).isSome = true)
    members _ hroot
    (by
      intro t m1 _ ht
      by_cases hp : t.processed m1.id = true
      · simpa [hp] using ht
      · simp only [hp, Bool.false_eq_true, if_false]
        exact assignGen1Entry members (fuelFor members) t m1.id 0 ht)

/-! ## Measure lemmas for fuel sufficiency -/

theorem filterLengthLt {α : Type} :
    ∀ (l : List α) (p q : α → Bool), (∀ x ∈ l, q x = true → p x = true) →
      ∀ x0 ∈ l, p x0 = true → q x0 = false →
      (l.filter q).length < (l.filter p).length := by
  intro l
  induction l with
  | nil => intro p q _ x0 hx0; exact absurd hx0 (List.not_mem_nil x0)
  | cons h t ih =>
    intro p q hpq x0 hx0 hp0 hq0
    have hle : (t.filter q).length ≤ (t.filter p).length := by
      rw [← List.countP_eq_length_filter, ← List.countP_eq_length_filter]
      exact List.countP_mono_left
        (fun x hx hqx => hpq x (List.mem_cons_of_mem _ hx) hqx)
    rcases List.mem_cons.mp hx0 with rfl | hxt
    · rw [List.filter_cons, List.filter_cons, hp0, hq0]
      simpa using Nat.lt_succ_of_le hle
    · have hlt := ih p q (fun x hx hqx => hpq x (List.mem_cons_of_mem _ hx) hqx)
        x0 hxt hp0 hq0
      rw [List.filter_cons, List.filter_cons]
      cases hqh : q h with
      | true =>
        rw [hpq h (List.mem_cons_self _ _) hqh]
        simpa using Nat.succ_lt_succ hlt
      | false =>
        cases hph : p h with
        | true => simpa using Nat.lt_succ_of_lt hlt
        | false => simpa using hlt

/-- Marking an unprocessed universe id strictly decreases the
measure. -/
theorem measureLtOfInsert (members : List Member) (st : GenState)
    (id : String) (g : Nat) (hid : id ∈ universeIds members)
    (hp : st.processed id = false) :
    measureOf members ((st.setGen id g).markProcessed id)
      < measureOf members st := by
  unfold measureOf
  refine filterLengthLt _ _ _ ?_ id (List.mem_dedup.mpr hid) ?_ ?_
  · intro x _ hx
    simp only [GenState.markProcessed, GenState.setGen, Bool.not_eq_true',
      Bool.or_eq_false_iff, decide_eq_false_iff_not] at hx
    simp [hx.2]
  · simp [hp]
  · simp [GenState.markProcessed, GenState.setGen]

/-- A state with more processed ids has a smaller measure. -/
theorem measureLeOfMono (members : List Member) (st st' : GenState)
    (h : ∀ x, st.processed x = true → st'.processed x = true) :
    measureOf members st' ≤ measureOf members st := by
  unfold measureOf
  rw [← List.countP_eq_length_filter, ← List.countP_eq_length_filter]
  refine List.countP_mono_left ?_
  intro x _ hx
  simp only [Bool.not_eq_true'] at hx ⊢
  cases hb : st.processed x with
  | false => rfl
  | true => exact absurd (h x hb) (by simp [hx])

theorem assignGen1MeasureLe (members : List Member) (fuel : Nat)
    (st : GenState) (id : String) (g : Nat) :
    measureOf members (assignGen1 members fuel st id g)
      ≤ measureOf members st :=
  measureLeOfMono members st _
    (fun x hx => (assignGen1Frozen members fuel st id g x hx).1)

/-- The measure never exceeds the fuel budget minus one. -/
theorem measureLtFuelFor (members : List Member) (st : GenState) :
    measureOf members st < fuelFor members := by
  unfold measureOf fuelFor
  have h1 : ((universeIds members).dedup.filter
      (fun x => ! st.processed x)).length ≤ (universeIds members).dedup.length :=
    List.length_filter_le _ _
  have h2 : (universeIds members).dedup.length ≤ (universeIds members).length :=
    (List.dedup_sublist _).length_le
  omega

/-- Every member's id is a universe id. -/
theorem memIdUniverse (members : List Member) (m : Member) (hm : m ∈ members) :
    m.id ∈ universeIds members :=
  List.mem_append_left _ (List.mem_map.mpr ⟨m, hm, rfl⟩)

/-- `findMember` succeeds on any id carried by a member, returning a
member with that id. -/
theorem findMemberSome (members : List Member) (id : String)
    (hmem : ∃ mem ∈ members, mem.id = id) :
    ∃ mem', findMember members id = some mem' ∧ mem' ∈ members ∧
      mem'.id = id := by
  obtain ⟨mem, hm, hid⟩ := hmem
  cases hf : findMember members id with
  | none =>
    unfold findMember at hf
    rw [List.find?_eq_none] at hf
    exact absurd (by simp [hid]) (hf mem hm)
  | some mem' =>
    refine ⟨mem', rfl, ?_, ?_⟩
    · exact List.mem_of_find?_eq_some hf
    · have := List.find?_some hf
      simpa using this

/-! ## Layout structure lemmas -/

theorem foldlMaxStart : ∀ (l : List Nat) (a : Nat), a ≤ l.foldl max a := by
  intro l
  induction l with
  | nil => intro a; exact le_refl a
  | cons h t ih =>
    intro a
    exact le_trans (le_max_left a h) (ih (max a h))

theorem foldlMaxLe : ∀ (l : List Nat) (a x : Nat), x ∈ l → x ≤ l.foldl max a := by
  intro l
  induction l with
  | nil => intro a x hx; exact absurd hx (List.not_mem_nil x)
  | cons h t ih =>
    intro a x hx
    rcases List.mem_cons.mp hx with he | ht
    · subst he
      exact le_trans (le_max_right a x) (foldlMaxStart t (max a x))
    · exact ih (max a h) x ht

/-- Every member is bucketed under its own generation. -/
theorem memGroupOf (members : List Member) (g : GenState) (m : Member)
    (hm : m ∈ members) : m.id ∈ groupOf members g (genOf g m.id) := by
  refine List.mem_map.mpr ⟨m, ?_, rfl⟩
  exact List.mem_filter.mpr ⟨hm, by simp⟩

/-- Everything in a bucket has that bucket's generation. -/
theorem groupOfGen (members : List Member) (g : GenState) (gen : Nat)
    (q : String) (hq : q ∈ groupOf members g gen) : genOf g q = gen := by
  obtain ⟨m, hmem, rfl⟩ := List.mem_map.mp hq
  have := (List.mem_filter.mp hmem).2
  simpa using this

theorem genOfLeMaxGen (members : List Member) (g : GenState) (m : Member)
    (hm : m ∈ members) : genOf g m.id ≤ maxGenOf members g :=
  foldlMaxLe _ 0 _ (List.mem_map.mpr ⟨m, hm, rfl⟩)

/-- The row of a member's generation is present in the row list. -/
theorem rowMemOf (members : List Member) (g : GenState) (m : Member)
    (hm : m ∈ members) :
    (genOf g m.id, sortRow members (groupOf members g (genOf g m.id)))
      ∈ rowsOf members g := by
  refine List.mem_filterMap.mpr ⟨genOf g m.id, ?_, ?_⟩
  · exact List.mem_range.mpr (Nat.lt_succ_of_le (genOfLeMaxGen members g m hm))
  · have hne : groupOf members g (genOf g m.id) ≠ [] := by
      intro h0
      exact absurd (memGroupOf members g m hm) (by simp [h0])
    simp only [List.isEmpty_eq_true]
    rw [if_neg hne]

/-- Every row in the row list is the sorted form of its bucket. -/
theorem rowsOfShape (members : List Member) (g : GenState)
    (pr : Nat × List String) (hpr : pr ∈ rowsOf members g) :
    pr.2 = sortRow members (groupOf members g pr.1) ∧
    groupOf members g pr.1 ≠ [] := by
  obtain ⟨gen, _, heq⟩ := List.mem_filterMap.mp hpr
  simp only at heq
  split at heq
  · exact absurd heq (by simp)
  · rename_i hne
    have hp := Option.some.inj heq
    subst hp
    refine ⟨rfl, ?_⟩
    simpa [List.isEmpty_eq_true] using hne

/-- Both members of a pairing push are one of the two paired ids. -/
theorem pairOfMem (members : List Member) (a b : String) :
    ∀ y ∈ pairOf members a b, y = a ∨ y = b := by
  intro y hy
  unfold pairOf at hy
  split at hy
  · rcases List.mem_cons.mp hy with rfl | h
    · exact Or.inr rfl
    · exact Or.inl (List.mem_singleton.mp h)
  · rcases List.mem_cons.mp hy with rfl | h
    · exact Or.inl rfl
    · exact Or.inr (List.mem_singleton.mp h)

theorem memPairOfLeft (members : List Member) (a b : String) :
    a ∈ pairOf members a b := by
  unfold pairOf
  split
  · exact List.mem_cons_of_mem _ (List.mem_singleton.mpr rfl)
  · exact List.mem_cons_self _ _

theorem memPairOfRight (members : List Member) (a b : String) :
    b ∈ pairOf members a b := by
  unfold pairOf
  split
  · exact List.mem_cons_self _ _
  · exact List.mem_cons_of_mem _ (List.mem_singleton.mpr rfl)

/-- Candidate partners are drawn from the bucket being sorted. -/
theorem partnersInRowOfSubset (members : List Member) (idsInGen : List String)
    (id : String) : ∀ q ∈ partnersInRowOf members idsInGen id, q ∈ idsInGen := by
  intro q hq
  unfold partnersInRowOf at hq
  split at hq
  · exact absurd hq (List.not_mem_nil q)
  · have := (List.mem_filter.mp hq).2
    simpa using this

/-- A row-ordering step never removes already-placed slots. -/
theorem sortRowStepGrow (members : List Member) (idsInGen : List String)
    (p : List String × (String → Bool)) (a : String) (x : String)
    (hx : x ∈ p.1) : x ∈ (sortRowStep members idsInGen p a).1 := by
  unfold sortRowStep
  split
  · exact hx
  · split
    · exact List.mem_append_left _ hx
    · exact List.mem_append_left _ hx

/-- A row-ordering step only pushes ids of the bucket being sorted. -/
theorem sortRowStepStay (members : List Member) (idsInGen : List String)
    (p : List String × (String → Bool)) (a : String) (ha : a ∈ idsInGen)
    (hp : ∀ y ∈ p.1, y ∈ idsInGen) :
    ∀ y ∈ (sortRowStep members idsInGen p a).1, y ∈ idsInGen := by
  unfold sortRowStep
  split
  · exact hp
  · split
    · intro y hy
      rcases List.mem_append.mp hy with h1 | h2
      · exact hp y h1
      · rcases List.mem_singleton.mp h2 with rfl
        exact ha
    · rename_i partnerId rest hfilter
      intro y hy
      have hpartner : partnerId ∈ idsInGen :=
        partnersInRowOfSubset members idsInGen a partnerId
          (hfilter ▸ List.mem_cons_self _ _)
      rcases List.mem_append.mp hy with h1 | h2
      · exact hp y h1
      · rcases pairOfMem members a partnerId y h2 with rfl | rfl
        · exact ha
        · exact hpartner

/-- A row-ordering step keeps the visited set inside the placed list. -/
theorem sortRowStepVisited (members : List Member) (idsInGen : List String)
    (p : List String × (String → Bool)) (a : String)
    (hp : ∀ y, p.2 y = true → y ∈ p.1) :
    ∀ y, (sortRowStep members idsInGen p a).2 y = true →
      y ∈ (sortRowStep members idsInGen p a).1 := by
  unfold sortRowStep
  split
  · exact hp
  · split
    · intro y hy
      simp only [Bool.or_eq_true, decide_eq_true_eq] at hy
      rcases hy with rfl | h2
      · exact List.mem_append_right _ (List.mem_singleton.mpr rfl)
      · exact List.mem_append_left _ (hp y h2)
    · rename_i partnerId rest hfilter
      intro y hy
      simp only [Bool.or_eq_true, decide_eq_true_eq] at hy
      rcases hy with rfl | rfl | h3
      · exact List.mem_append_right _ (memPairOfLeft members y partnerId)
      · exact List.mem_append_right _ (memPairOfRight members a y)
      · exact List.mem_append_left _ (hp _ h3)

/-- After its own step, an id is placed. -/
theorem sortRowStepSelf (members : List Member) (idsInGen : List String)
    (p : List String × (String → Bool)) (a : String)
    (hp : ∀ y, p.2 y = true → y ∈ p.1) :
    a ∈ (sortRowStep members idsInGen p a).1 := by
  unfold sortRowStep
  split
  · rename_i hvis
    exact hp a hvis
  · split
    · exact List.mem_append_right _ (List.mem_singleton.mpr rfl)
    · rename_i partnerId rest hfilter
      exact List.mem_append_right _ (memPairOfLeft members a partnerId)

/-- Every slot of a sorted row is an id of the bucket being sorted. -/
theorem sortRowSubset (members : List Member) (idsInGen : List String) :
    ∀ x ∈ sortRow members idsInGen, x ∈ idsInGen := by
  unfold sortRow
  refine foldlPreserve (sortRowStep members idsInGen)
    (fun p => ∀ y ∈ p.1, y ∈ idsInGen) idsInGen ([], fun _ => false) ?_ ?_
  · intro y hy
    exact absurd hy (List.not_mem_nil y)
  · intro t a ha ht
    exact sortRowStepStay members idsInGen t a ha ht

/-- Every id of the bucket gets at least one slot of the sorted row. -/
theorem sortRowCover (members : List Member) (idsInGen : List String) :
    ∀ x ∈ idsInGen, x ∈ sortRow members idsInGen := by
  intro x hx
  unfold sortRow
  have main : ∀ (l : List String) (p : List String × (String → Bool)),
      (∀ y, p.2 y = true → y ∈ p.1) → (x ∈ l ∨ x ∈ p.1) →
      x ∈ (l.foldl (sortRowStep members idsInGen) p).1 := by
    intro l
    induction l with
    | nil =>
      intro p _ hor
      rcases hor with h | h
      · exact absurd h (List.not_mem_nil x)
      · exact h
    | cons h t ih =>
      intro p hinv hor
      have hinv2 := sortRowStepVisited members idsInGen p h hinv
      rcases hor with hmem | hin
      · rcases List.mem_cons.mp hmem with rfl | ht
        · exact ih _ hinv2 (Or.inr (sortRowStepSelf members idsInGen p x hinv))
        · exact ih _ hinv2 (Or.inl ht)
      · exact ih _ hinv2
          (Or.inr (sortRowStepGrow members idsInGen p h x hin))
  exact main idsInGen ([], fun _ => false) (by intro y hy; simp at hy) (Or.inl hx)

theorem sndMemOfMemEnumFrom {α : Type} :
    ∀ (l : List α) (k : Nat) (pr : Nat × α), pr ∈ l.enumFrom k → pr.2 ∈ l := by
  intro l
  induction l with
  | nil => intro k pr h; exact absurd h (List.not_mem_nil pr)
  | cons h t ih =>
    intro k pr hpr
    rcases List.mem_cons.mp hpr with rfl | hrest
    · exact List.mem_cons_self _ _
    · exact List.mem_cons_of_mem _ (ih (k + 1) pr hrest)

/-- Placing a row never erases a position. -/
theorem placeRow1Keeps (acc : Layout1) (row : Nat × List String) (q : String)
    (hq : (acc.positions q).isSome = true) :
    ((placeRow1 acc row).positions q).isSome = true := by
  unfold placeRow1
  refine foldlPreserve _ (fun (a : Layout1) => (a.positions q).isSome = true)
    row.2.enum acc hq ?_
  intro a slot _ ha
  by_cases he : q = slot.2
  · simp [he]
  · simpa [he] using ha

/-- Placing a row gives every slot id a position. -/
theorem placeRow1Covers (acc : Layout1) (row : Nat × List String) (q : String)
    (hq : q ∈ row.2) :
    ((placeRow1 acc row).positions q).isSome = true := by
  unfold placeRow1
  have main : ∀ (l : List String) (k : Nat) (a : Layout1), q ∈ l →
      (((l.enumFrom k).foldl (fun (a : Layout1) (slot : Nat × String) =>
        ⟨fun q1 => if q1 = slot.2 then some (slotX1 slot.1, rowY1 row.1)
                   else a.positions q1,
         max a.maxWidth (slotX1 slot.1 + nodeWidth1 + padding1),
         max a.maxHeight (rowY1 row.1 + nodeHeight1 + padding1)⟩) a).positions q).isSome
        = true := by
    intro l
    induction l with
    | nil => intro k a h; exact absurd h (List.not_mem_nil q)
    | cons h t ih =>
      intro k a hmem
      rcases List.mem_cons.mp hmem with rfl | ht
      · show ((((k, q) :: t.enumFrom (k + 1)).foldl _ a).positions q).isSome = true
        refine foldlPreserve _ (fun (a1 : Layout1) => (a1.positions q).isSome = true)
          (t.enumFrom (k + 1)) _ (by simp) ?_
        intro a1 slot _ ha1
        by_cases he : q = slot.2
        · simp [he]
        · simpa [he] using ha1
      · exact ih (k + 1) _ ht
  exact main row.2 0 acc hq

/-- Placing a row writes only slot ids of that row, each with the
row's y-coordinate. -/
theorem placeRow1Y (g : GenState) (acc : Layout1) (row : Nat × List String)
    (hrow : ∀ q ∈ row.2, genOf g q = row.1)
    (hacc : ∀ q, acc.positions q = none ∨
      ∃ xv, acc.positions q = some (xv, rowY1 (genOf g q))) :
    ∀ q, (placeRow1 acc row).positions q = none ∨
      ∃ xv, (placeRow1 acc row).positions q = some (xv, rowY1 (genOf g q)) := by
  unfold placeRow1
  refine foldlPreserve _ (fun (a : Layout1) => ∀ q, a.positions q = none ∨
    ∃ xv, a.positions q = some (xv, rowY1 (genOf g q))) row.2.enum acc hacc ?_
  intro a slot hslot ha q
  by_cases he : q = slot.2
  · refine Or.inr ⟨slotX1 slot.1, ?_⟩
    have hgen : genOf g q = row.1 := by
      rw [he]
      exact hrow slot.2 (sndMemOfMemEnumFrom row.2 0 slot hslot)
    simp [he, ← hgen]
  · rcases ha q with h | ⟨xv, h⟩
    · exact Or.inl (by simpa [he] using h)
    · exact Or.inr ⟨xv, by simpa [he] using h⟩

/-- Every member receives a position from the variant-1 layout. -/
theorem computeLayout1Covers (members : List Member) (m : Member)
    (hm : m ∈ members) :
    (((computeLayout1 members).positions) m.id).isSome = true := by
  unfold computeLayout1
  have hrow := rowMemOf members (assignGenerations1 members) m hm
  have hslot : m.id ∈ sortRow members
      (groupOf members (assignGenerations1 members)
        (genOf (assignGenerations1 members) m.id)) :=
    sortRowCover members _ m.id (memGroupOf members _ m hm)
  refine foldlReach placeRow1
    (fun (a : Layout1) => (a.positions m.id).isSome = true) (fun _ => True)
    (rowsOf members (assignGenerations1 members)) _ _ hrow trivial
    (fun _ _ _ _ => trivial) ?_ ?_
  · intro t _
    exact placeRow1Covers t _ m.id hslot
  · intro t b _ ht
    exact placeRow1Keeps t b m.id ht

/-- Every recorded position carries the y-coordinate of its person's
generation row: `y = padding + generation * verticalGap`. -/
theorem computeLayout1Height (members : List Member) :
    ∀ q, (computeLayout1 members).positions q = none ∨
      ∃ xv, (computeLayout1 members).positions q
        = some (xv, rowY1 (genOf (assignGenerations1 members) q)) := by
  unfold computeLayout1
  refine foldlPreserve placeRow1 (fun (a : Layout1) => ∀ q, a.positions q = none ∨
    ∃ xv, a.positions q = some (xv, rowY1 (genOf (assignGenerations1 members) q)))
    (rowsOf members (assignGenerations1 members)) _ (fun q => Or.inl rfl) ?_
  intro t row hmem ht
  have hshape := rowsOfShape members (assignGenerations1 members) row hmem
  refine placeRow1Y (assignGenerations1 members) t row ?_ ht
  intro q hq
  rw [hshape.1] at hq
  exact groupOfGen members (assignGenerations1 members) row.1 q
    (sortRowSubset members _ q hq)

/-! ## Connector emission lemmas -/

/-- A specification for `findIdx`: the first index whose element
satisfies the predicate. -/
theorem findIdxSpec {α : Type} (p : α → Bool) :
    ∀ (l : List α) (j : Nat) (b : α), l[j]? = some b → p b = true →
      (∀ k, k < j → ∀ x, l[k]? = some x → p x = false) →
      l.findIdx p = j := by
  intro l
  induction l with
  | nil => intro j b h _ _; simp at h
  | cons h t ih =>
    intro j b hj hb hk
    cases j with
    | zero =>
      simp only [List.getElem?_cons_zero, Option.some.injEq] at hj
      subst hj
      simp [List.findIdx_cons, hb]
    | succ j1 =>
      have hh : p h = false := hk 0 (Nat.succ_pos j1) h (by simp)
      simp only [List.findIdx_cons, hh, cond_false]
      have := ih j1 b (by simpa using hj) hb
        (fun k hkj x hx => hk (k + 1) (Nat.succ_lt_succ hkj) x (by simpa using hx))
      omega

/-- Summing a function over a duplicate-free list with a single
distinguished element on which alone it may be nonzero. -/
theorem sumMapSingle {β : Type} :
    ∀ (L : List β) (F : β → Nat) (p0 : β), L.Nodup → p0 ∈ L →
      (∀ p ∈ L, p ≠ p0 → F p = 0) → (L.map F).sum = F p0 := by
  intro L
  induction L with
  | nil => intro F p0 _ hmem _; exact absurd hmem (List.not_mem_nil p0)
  | cons h t ih =>
    intro F p0 hnd hmem hz
    by_cases hh : h = p0
    · subst hh
      have hnt : h ∉ t := (List.nodup_cons.mp hnd).1
      have hzero : ∀ x ∈ t.map F, x = 0 := by
        intro x hx
        obtain ⟨y, hy, rfl⟩ := List.mem_map.mp hx
        have hyh : y ≠ h := fun he => hnt (he ▸ hy)
        exact hz y (List.mem_cons_of_mem _ hy) hyh
      simp [List.sum_eq_zero hzero]
    · have hFh : F h = 0 := hz h (List.mem_cons_self _ _) hh
      have hmem2 : p0 ∈ t := by
        rcases List.mem_cons.mp hmem with he | ht
        · exact absurd he.symm hh
        · exact ht
      simp only [List.map_cons, List.sum_cons, hFh, Nat.zero_add]
      exact ih F p0 (List.nodup_cons.mp hnd).2 hmem2
        (fun x hx hxp => hz x (List.mem_cons_of_mem _ hx) hxp)

/-- Characterization of one member's connector emissions. -/
theorem memberConnectorsMem (members : List Member)
    (pos : String → Option (Nat × Nat)) (p : Nat × Member) (c : Connector) :
    c ∈ memberConnectors1 members pos p ↔
      ∃ mp0 pp0 pid0, pos p.2.id = some mp0 ∧ pid0 ∈ p.2.partners ∧
        pos pid0 = some pp0 ∧ p.1 < members.findIdx (fun x => x.id = pid0) ∧
        c = ⟨p.2.id, pid0, mp0.1 + nodeWidth1, mp0.2 + nodeHeight1 / 2,
             pp0.1, pp0.2 + nodeHeight1 / 2⟩ := by
  unfold memberConnectors1
  cases hmp : pos p.2.id with
  | none => simp
  | some mp =>
    rw [List.mem_filterMap]
    constructor
    · rintro ⟨pId, hmem, hg⟩
      cases hpp : pos pId with
      | none =>
        simp only [hpp] at hg
        exact absurd hg (by simp)
      | some pp =>
        simp only [hpp] at hg
        by_cases hguard : p.1 < members.findIdx (fun x => x.id = pId)
        · rw [if_pos hguard] at hg
          exact ⟨mp, pp, pId, rfl, hmem, hpp, hguard, (Option.some.inj hg).symm⟩
        · rw [if_neg hguard] at hg
          exact absurd hg (by simp)
    · rintro ⟨mp0, pp0, pid0, hmp0, hmem, hpp0, hguard, hc⟩
      have hmpe : mp = mp0 := Option.some.inj hmp0
      subst hmpe
      refine ⟨pid0, hmem, ?_⟩
      simp only [hpp0]
      rw [if_pos hguard, hc]

/-! ## The forest case: traversal computes the depth function -/

/-- The central forest lemma.  On inputs where every member has a
nonempty id and no partners, and `d` is a depth function compatible
with the parents relation, a traversal call on a member id carrying
that member's depth preserves the forest invariant (for any in-flight
exception set `X`). -/
theorem forestMain (members : List Member) (d : String → Nat)
    (hne : ∀ m ∈ members, m.id ≠ "")
    (hnp : ∀ m ∈ members, m.partners = [])
    (hd1 : ∀ m ∈ members, ∀ pid ∈ m.parents, d m.id = d pid + 1) :
    ∀ (fuel : Nat) (st : GenState) (X : String → Prop) (id : String) (g : Nat),
      (∃ mem ∈ members, mem.id = id) → g = d id →
      measureOf members st < fuel →
      forestInv members d X st →
      forestInv members d X (assignGen1 members fuel st id g) := by
  intro fuel
  induction fuel with
  | zero =>
    intro st X id g _ _ hfuel _
    exact absurd hfuel (Nat.not_lt_zero _)
  | succ n ih =>
    intro st X id g hmem hg hfuel hinv
    obtain ⟨mem0, hmem0, hid0⟩ := hmem
    have hidne : id ≠ "" := hid0 ▸ hne mem0 hmem0
    by_cases hpro : st.processed id = true
    · simp only [assignGen1, decide_eq_true_eq]
      rw [if_pos (Or.inr hpro)]
      exact hinv
    · have hguard : ¬ (id = "" ∨ st.processed id = true) := by
        intro hor
        rcases hor with h | h
        · exact hidne h
        · exact hpro h
      simp only [assignGen1, decide_eq_true_eq]
      rw [if_neg hguard]
      have hinv1 : forestInv members d (fun y => y = id ∨ X y)
          ((st.setGen id g).markProcessed id) := by
        constructor
        · intro m hmmem hmp
          by_cases hmid : m.id = id
          · have hval : ((st.setGen id g).markProcessed id).generations m.id
                = some g := by
              simp [GenState.markProcessed, GenState.setGen, hmid]
            rw [hval, hg, hmid]
          · have hmp0 : st.processed m.id = true := by
              simpa [GenState.markProcessed, GenState.setGen, hmid] using hmp
            have hold := hinv.1 m hmmem hmp0
            simpa [GenState.markProcessed, GenState.setGen, hmid] using hold
        · intro m hmmem hmp hmX c hc
          have hmid : m.id ≠ id := fun he => hmX (Or.inl he)
          have hmp0 : st.processed m.id = true := by
            simpa [GenState.markProcessed, GenState.setGen, hmid] using hmp
          have hcp := hinv.2 m hmmem hmp0 (fun hx => hmX (Or.inr hx)) c hc
          simp [GenState.markProcessed, GenState.setGen, hcp]
      obtain ⟨mem', hfindeq, hmem', hmid'⟩ :=
        findMemberSome members id ⟨mem0, hmem0, hid0⟩
      have hm1 : measureOf members ((st.setGen id g).markProcessed id) < n := by
        have h2 := measureLtOfInsert members st id g
          (hid0 ▸ memIdUniverse members mem0 hmem0)
          (Bool.eq_false_iff.mpr hpro)
        omega
      have hchild : ∀ (cs : List Member), (∀ c ∈ cs, c ∈ childrenOf members id) →
          ∀ (s : GenState), forestInv members d (fun y => y = id ∨ X y) s →
          measureOf members s ≤ measureOf members ((st.setGen id g).markProcessed id) →
          forestInv members d (fun y => y = id ∨ X y)
            (cs.foldl (fun s1 c => assignGen1 members n s1 c.id (g + 1)) s) ∧
          (∀ x, s.processed x = true →
            (cs.foldl (fun s1 c => assignGen1 members n s1 c.id (g + 1)) s).processed x
              = true) ∧
          (∀ c ∈ cs,
            (cs.foldl (fun s1 c => assignGen1 members n s1 c.id (g + 1)) s).processed c.id
              = true) := by
        intro cs
        induction cs with
        | nil =>
          intro _ s hs _
          exact ⟨hs, fun x hx => hx,
            fun c hc => absurd hc (List.not_mem_nil c)⟩
        | cons c0 cst ihc =>
          intro hsub s hs hms
          have hc0mem : c0 ∈ childrenOf members id :=
            hsub c0 (List.mem_cons_self _ _)
          have hc0m : c0 ∈ members := (List.mem_filter.mp hc0mem).1
          have hc0par : id ∈ c0.parents := by
            have hf := (List.mem_filter.mp hc0mem).2
            simpa using hf
          have hdc0 : g + 1 = d c0.id := by
            rw [hg]
            exact (hd1 c0 hc0m id hc0par).symm
          have hnpos : 1 ≤ n := by omega
          have hs1 : forestInv members d (fun y => y = id ∨ X y)
              (assignGen1 members n s c0.id (g + 1)) :=
            ih s (fun y => y = id ∨ X y) c0.id (g + 1) ⟨c0, hc0m, rfl⟩ hdc0
              (lt_of_le_of_lt hms hm1) hs
          have hms1 : measureOf members (assignGen1 members n s c0.id (g + 1))
              ≤ measureOf members ((st.setGen id g).markProcessed id) :=
            le_trans (assignGen1MeasureLe members n s c0.id (g + 1)) hms
          obtain ⟨hf1, hf2, hf3⟩ := ihc
            (fun c hc => hsub c (List.mem_cons_of_mem _ hc)) _ hs1 hms1
          refine ⟨hf1, ?_, ?_⟩
          · intro x hx
            exact hf2 x (assignGen1Frozen members n s c0.id (g + 1) x hx).1
          · intro c hc
            rcases List.mem_cons.mp hc with rfl | hct
            · exact hf2 c.id
                (assignGen1MarksPos members n s c.id (g + 1) hnpos (hne c hc0m))
            · exact hf3 c hct
      cases hfind : findMember members id with
      | none =>
        rw [hfindeq] at hfind
        exact absurd hfind (by simp)
      | some memf =>
        show forestInv members d X
          (List.foldl (fun s p => assignGen1 members n s p g)
            (List.foldl (fun s c => assignGen1 members n s c.id (g + 1))
              ((st.setGen id g).markProcessed id) (childrenOf members id))
            memf.partners)
        have hmemf : memf = mem' := Option.some.inj (hfind.symm.trans hfindeq)
        rw [hnp memf (hmemf ▸ hmem'), List.foldl_nil]
        obtain ⟨hInv2, hmono2, hctotal⟩ := hchild (childrenOf members id)
          (fun c hc => hc) ((st.setGen id g).markProcessed id) hinv1 (le_refl _)
        constructor
        · exact hInv2.1
        · intro m hmmem hmp hmX c hc
          by_cases hmid : m.id = id
          · rw [hmid] at hc
            exact hctotal c hc
          · exact hInv2.2 m hmmem hmp
              (fun hor => by
                rcases hor with h | h
                · exact hmid h
                · exact hmX h) c hc

/-- The root pass establishes the forest invariant with no in-flight
exceptions. -/
theorem forestRootPass (members : List Member) (d : String → Nat)
    (hne : ∀ m ∈ members, m.id ≠ "")
    (hnp : ∀ m ∈ members, m.partners = [])
    (hd0 : ∀ m ∈ members, m.parents = [] → d m.id = 0)
    (hd1 : ∀ m ∈ members, ∀ pid ∈ m.parents, d m.id = d pid + 1) :
    forestInv members d (fun _ => False)
      ((rootsOf members).foldl
        (fun (s : GenState) (r : Member) =>
          assignGen1 members (fuelFor members) s r.id 0) GenState.init) := by
  refine foldlPreserve _ (forestInv members d (fun _ => False))
    (rootsOf members) GenState.init ?_ ?_
  · constructor
    · intro m _ hmp
      simp [GenState.init] at hmp
    · intro m _ hmp
      simp [GenState.init] at hmp
  · intro t r hr ht
    have hrm : r ∈ members := (List.mem_filter.mp hr).1
    have hrpar : r.parents = [] := by
      have hf := (List.mem_filter.mp hr).2
      simpa [List.isEmpty_eq_true] using hf
    exact forestMain members d hne hnp hd1 (fuelFor members) t _ r.id 0
      ⟨r, hrm, rfl⟩ (hd0 r hrm hrpar).symm (measureLtFuelFor members t) ht

/-- Every root candidate is processed by the root pass. -/
theorem forestRootsProcessed (members : List Member)
    (hne : ∀ m ∈ members, m.id ≠ "") :
    ∀ r ∈ rootsOf members,
      ((rootsOf members).foldl
        (fun (s : GenState) (r1 : Member) =>
          assignGen1 members (fuelFor members) s r1.id 0)
        GenState.init).processed r.id = true := by
  intro r hr
  refine foldlReach _ (fun (t : GenState) => t.processed r.id = true)
    (fun _ => True) (rootsOf members) r GenState.init hr trivial
    (fun _ _ _ _ => trivial) ?_ ?_
  · intro t _
    refine assignGen1MarksPos members (fuelFor members) t r.id 0 ?_
      (hne r ((List.mem_filter.mp hr).1))
    unfold fuelFor
    omega
  · intro t b _ ht
    exact (assignGen1Frozen members (fuelFor members) t b.id 0 r.id ht).1

/-- On forest inputs, the full variant-1 pipeline records exactly the
depth function: the root pass reaches everyone (so the orphan sweep
does nothing), and the invariant pins every value to `d`. -/
theorem forestValues (members : List Member) (d : String → Nat)
    (hne : ∀ m ∈ members, m.id ≠ "")
    (hnp : ∀ m ∈ members, m.partners = [])
    (hres : ∀ m ∈ members, ∀ pid ∈ m.parents, ∃ pm ∈ members, pm.id = pid)
    (hd0 : ∀ m ∈ members, m.parents = [] → d m.id = 0)
    (hd1 : ∀ m ∈ members, ∀ pid ∈ m.parents, d m.id = d pid + 1) :
    ∀ m ∈ members,
      (assignGenerations1 members).generations m.id = some (d m.id) := by
  have hinvR := forestRootPass members d hne hnp hd0 hd1
  have hcov : ∀ (k : Nat) (m : Member), m ∈ members → d m.id < k →
      ((rootsOf members).foldl
        (fun (s : GenState) (r1 : Member) =>
          assignGen1 members (fuelFor members) s r1.id 0)
        GenState.init).processed m.id = true := by
    intro k
    induction k with
    | zero => intro m _ h; omega
    | succ k ihk =>
      intro m hm hdm
      by_cases hdk : d m.id < k
      · exact ihk m hm hdk
      · cases hpar : m.parents with
        | nil =>
          exact forestRootsProcessed members hne m
            (List.mem_filter.mpr ⟨hm, by simp [hpar]⟩)
        | cons pid rest =>
          have hpid : pid ∈ m.parents := by
            rw [hpar]
            exact List.mem_cons_self _ _
          obtain ⟨pm, hpm, hpmid⟩ := hres m hm pid hpid
          have hdp : d m.id = d pid + 1 := hd1 m hm pid hpid
          have hppm : ((rootsOf members).foldl
              (fun (s : GenState) (r1 : Member) =>
                assignGen1 members (fuelFor members) s r1.id 0)
              GenState.init).processed pm.id = true := by
            refine ihk pm hpm ?_
            rw [hpmid]
            omega
          have hmc : m ∈ childrenOf members pm.id := by
            refine List.mem_filter.mpr ⟨hm, ?_⟩
            simp [hpmid, hpar]
          exact hinvR.2 pm hpm hppm (fun hf => hf) m hmc
  have hall : ∀ m ∈ members,
      ((rootsOf members).foldl
        (fun (s : GenState) (r1 : Member) =>
          assignGen1 members (fuelFor members) s r1.id 0)
        GenState.init).processed m.id = true :=
    fun m hm => hcov (d m.id + 1) m hm (Nat.lt_succ_self _)
  have hsweep : ∀ (l : List Member) (s : GenState),
      (∀ m ∈ l, s.processed m.id = true) →
      l.foldl (fun (s1 : GenState) (m1 : Member) =>
        if s1.processed m1.id then s1
        else assignGen1 members (fuelFor members) s1 m1.id 0) s = s := by
    intro l
    induction l with
    | nil => intro s _; rfl
    | cons h t iht =>
      intro s hs
      rw [List.foldl_cons, if_pos (hs h (List.mem_cons_self _ _))]
      exact iht s (fun m hm => hs m (List.mem_cons_of_mem _ hm))
  intro m hm
  show (members.foldl
    (fun (s1 : GenState) (m1 : Member) =>
      if s1.processed m1.id then s1
      else assignGen1 members (fuelFor members) s1 m1.id 0)
    ((rootsOf members).foldl
      (fun (s : GenState) (r1 : Member) =>
        assignGen1 members (fuelFor members) s r1.id 0)
      GenState.init)).generations m.id = some (d m.id)
  rw [hsweep members _ hall]
  exact hinvR.1 m hm (hall m hm)

/-! ## The all-roots case: no parent edges, only partner propagation -/

/-- When nobody records parents, nobody has children. -/
theorem childrenOfEmpty (members : List Member)
    (hp : ∀ m ∈ members, m.parents = []) (id : String) :
    childrenOf members id = [] := by
  unfold childrenOf
  rw [List.filter_eq_nil_iff]
  intro m hm
  simp [hp m hm]

/-- When nobody records parents, every traversal call carries
generation 0, and the generation record holds nothing but zeros. -/
theorem assignGen1Zero (members : List Member)
    (hp : ∀ m ∈ members, m.parents = []) :
    ∀ (fuel : Nat) (st : GenState) (id : String),
      (∀ x, st.generations x = none ∨ st.generations x = some 0) →
      ∀ x, (assignGen1 members fuel st id 0).generations x = none ∨
        (assignGen1 members fuel st id 0).generations x = some 0 := by
  intro fuel
  induction fuel with
  | zero => intro st id h; exact h
  | succ n ih =>
    intro st id h x
    by_cases hguard : id = "" ∨ st.processed id = true
    · simp only [assignGen1, decide_eq_true_eq]
      rw [if_pos (by simpa using hguard)]
      exact h x
    · have hP1 : ∀ y, ((st.setGen id 0).markProcessed id).generations y = none ∨
          ((st.setGen id 0).markProcessed id).generations y = some 0 := by
        intro y
        by_cases hy : y = id
        · exact Or.inr (by simp [GenState.markProcessed, GenState.setGen, hy])
        · simpa [GenState.markProcessed, GenState.setGen, hy] using h y
      simp only [assignGen1, decide_eq_true_eq]
      rw [if_neg (by simpa using hguard)]
      cases hm : findMember members id with
      | none => exact hP1 x
      | some member =>
        rw [childrenOfEmpty members hp id]
        have h3 := foldlPreserve (fun s p => assignGen1 members n s p 0)
          (fun t => ∀ y, t.generations y = none ∨ t.generations y = some 0)
          member.partners _ hP1
          (fun t p _ ht => ih t p ht)
        exact h3 x

/-- When nobody records parents, the full variant-1 pipeline only
writes generation 0. -/
theorem assignGenerations1Zero (members : List Member)
    (hp : ∀ m ∈ members, m.parents = []) :
    ∀ x, (assignGenerations1 members).generations x = none ∨
      (assignGenerations1 members).generations x = some 0 := by
  show ∀ x, (members.foldl
    (fun (s : GenState) (m1 : Member) =>
      if s.processed m1.id then s
      else assignGen1 members (fuelFor members) s m1.id 0)
    ((rootsOf members).foldl
      (fun (s : GenState) (r : Member) =>
        assignGen1 members (fuelFor members) s r.id 0)
      GenState.init)).generations x = none ∨
    (members.foldl
    (fun (s : GenState) (m1 : Member) =>
      if s.processed m1.id then s
      else assignGen1 members (fuelFor members) s m1.id 0)
    ((rootsOf members).foldl
      (fun (s : GenState) (r : Member) =>
        assignGen1 members (fuelFor members) s r.id 0)
      GenState.init)).generations x = some 0
  have hroot := foldlPreserve
    (fun (s : GenState) (r : Member) => assignGen1 members (fuelFor members) s r.id 0)
    (fun t => ∀ y, t.generations y = none ∨ t.generations y = some 0)
    (rootsOf members) GenState.init (fun y => Or.inl rfl)
    (fun t r _ ht => assignGen1Zero members hp (fuelFor members) t r.id ht)
  exact foldlPreserve
    (fun (s : GenState) (m1 : Member) =>
      if s.processed m1.id then s
      else assignGen1 members (fuelFor members) s m1.id 0)
    (fun t => ∀ y, t.generations y = none ∨ t.generations y = some 0)
    members _ hroot
    (by
      intro t m1 _ ht
      by_cases hpr : t.processed m1.id = true
      · simpa [hpr] using ht
      · simp only [hpr, Bool.false_eq_true, if_false]
        exact assignGen1Zero members hp (fuelFor members) t m1.id ht)

/-! ## Counterexample and concrete claim theorems -/

/-- Counterexample to C1.  In `twoDepthParents`, `C` is reached by the
path `P2 → C` carrying 1 and by `G → P1 → C` carrying 2, so the claimed
maximum over reaching paths is 2 (one level below the deeper parent
`P1` at generation 1).  The code assigns `C` generation 1: the first
reaching path wins in this variant, and `C` sits at the same level as
its deeper parent rather than below it. -/
theorem c1Cex :
    (assignGenerations1 twoDepthParents).generations "C" = some 1 ∧
    (assignGenerations1 twoDepthParents).generations "P1" = some 1 ∧
    ¬ genOf (assignGenerations1 twoDepthParents) "C"
        = genOf (assignGenerations1 twoDepthParents) "P1" + 1 := by
  decide

/-- Counterexample to C2.  In `partnerBeforeParent`, `B`'s parents list
contains `A` and both are present, yet `generation[B] = 0 =
generation[A]`, violating `generation[child] ≥ generation[parent] + 1`:
`B` was first reached as the partner of root `C0` at generation 0. -/
theorem c2Cex :
    (∃ m ∈ partnerBeforeParent, m.id = "B" ∧ m.parents.contains "A") ∧
    (∃ m ∈ partnerBeforeParent, m.id = "A") ∧
    (assignGenerations1 partnerBeforeParent).generations "B" = some 0 ∧
    (assignGenerations1 partnerBeforeParent).generations "A" = some 0 ∧
    ¬ genOf (assignGenerations1 partnerBeforeParent) "A" + 1
        ≤ genOf (assignGenerations1 partnerBeforeParent) "B" := by
  decide

/-- Counterexample to C3.  A member whose id is the empty string is in
the input, but the `!id` guard of variant 1 drops it from the traversal,
so the generation map has no entry for it: generation assignment does
not return a generation value for every input person. -/
theorem c3Cex :
    (∃ m ∈ emptyIdMember, m.id = "") ∧
    (assignGenerations1 emptyIdMember).generations "" = none := by
  decide

/-- Counterexample to C4.  In variant 1's layout of `twoRootsOneChild`,
generation 0 holds the slots `[P1, P2]` and generation 1 the slot `[C]`;
the leftmost x plus rightmost x + nodeWidth is `120 + 440 + 240 = 800`
for the first row but `120 + 120 + 240 = 480` for the second: rows are
left-aligned at `padding`, not centered on a shared midline. -/
theorem c4Cex :
    rowsOf twoRootsOneChild (assignGenerations1 twoRootsOneChild)
      = [(0, ["P1", "P2"]), (1, ["C"])] ∧
    ¬ slotX1 0 + (slotX1 1 + nodeWidth1) = slotX1 0 + (slotX1 0 + nodeWidth1) := by
  decide

/-- Counterexample to C5.  In `partnerMismatch`, `A` lists `B` as a
partner and both are present, yet `generation[A] = 0` while
`generation[B] = 1`: `B` was already fixed at generation 1 through its
parent before the partner edge from `A` was followed, and the
already-processed check skips any equalization. -/
theorem c5Cex :
    (∃ m ∈ partnerMismatch, m.id = "A" ∧ m.partners.contains "B") ∧
    (∃ m ∈ partnerMismatch, m.id = "B") ∧
    (assignGenerations1 partnerMismatch).generations "A" = some 0 ∧
    (assignGenerations1 partnerMismatch).generations "B" = some 1 ∧
    ¬ genOf (assignGenerations1 partnerMismatch) "A"
        = genOf (assignGenerations1 partnerMismatch) "B" := by
  decide

/-- Counterexample to C6.  In `asymmetricPartner`, the single row first
places `B` alone, then pairs `A` with `B` without re-checking that `B`
is already placed: `B` occupies two slots of the row's placement
sequence. -/
theorem c6Cex :
    rowsOf asymmetricPartner (assignGenerations1 asymmetricPartner)
      = [(0, ["B", "A", "B"])] ∧
    ¬ (["B", "A", "B"].count "B") = 1 := by
  decide

/-- Counterexample to C7.  In variant 1's layout of `parentChildPair`,
the child at generation 1 receives `y = padding + 1 * verticalGap =
320`, while the claimed formula `padding + g * (nodeHeight +
verticalGap)` gives `440`. -/
theorem c7Cex :
    (computeLayout1 parentChildPair).positions "C" = some (120, 320) ∧
    ¬ (320 : Nat) = padding1 + 1 * (nodeHeight1 + verticalGap1) := by
  decide

/-- Counterexample to C8.  In `laterListsEarlier`, a partner relation
between `A` and `B` is recorded (in `B`'s list), both are placed, yet
zero connectors are emitted: the guard `indexOf(m) <
indexOf(find(partner))` rejects the emission because the only member
listing the relation comes later in input order. -/
theorem c8Cex :
    (∃ m ∈ laterListsEarlier, m.id = "B" ∧ m.partners.contains "A") ∧
    ((computeLayout1 laterListsEarlier).positions "A").isSome = true ∧
    ((computeLayout1 laterListsEarlier).positions "B").isSome = true ∧
    partnerConnectors1 laterListsEarlier = [] := by
  decide

/-- Claim C3 (amended).  Generation assignment and layout are total
Lean functions on every finite input (termination holds by
construction, with fuel shown sufficient by the coverage below); every
input person with a nonempty id receives a generation value, and every
input person receives a position.  The restriction to nonempty ids for
the generation part is forced by `c3Cex`: the `!id` guard of variant 1
drops a falsy id from the traversal, though the layout still places it
via the `?? 0` default. -/
theorem c3Total (members : List Member) (m : Member) (hm : m ∈ members) :
    (m.id ≠ "" → ((assignGenerations1 members).generations m.id).isSome = true) ∧
    ((computeLayout1 members).positions m.id).isSome = true := by
  constructor
  · intro hid
    exact assignGenerations1Entry members m.id
      (assignGenerations1Processed members m hm hid)
  · exact computeLayout1Covers members m hm

/-- Witness for `c3Total` at the parent/child input. -/
theorem c3TotalWitness :
    ((assignGenerations1 parentChildPair).generations "C").isSome = true ∧
    ((computeLayout1 parentChildPair).positions "C").isSome = true :=
  ⟨(c3Total parentChildPair { id := "C", parents := ["P"] } (by decide)).1
      (by decide),
   (c3Total parentChildPair { id := "C", parents := ["P"] } (by decide)).2⟩

/-- Claim C7 (amended).  Every placed person's y-coordinate is
`padding + generation * verticalGap` — constant across the generation
and independent of the row's width — where `verticalGap` is the full
row pitch; the claimed formula `padding + g * (nodeHeight +
verticalGap)` does not match the code (`c7Cex`). -/
theorem c7RowHeight (members : List Member) (m : Member) (hm : m ∈ members) :
    ∃ xv, (computeLayout1 members).positions m.id
      = some (xv, padding1 + genOf (assignGenerations1 members) m.id * verticalGap1) := by
  rcases computeLayout1Height members m.id with h | ⟨xv, h⟩
  · have hc := computeLayout1Covers members m hm
    rw [h] at hc
    simp at hc
  · exact ⟨xv, by simpa [rowY1] using h⟩

/-- Witness for `c7RowHeight` at the parent/child input. -/
theorem c7RowHeightWitness :
    ∃ xv, (computeLayout1 parentChildPair).positions "C"
      = some (xv, padding1 + genOf (assignGenerations1 parentChildPair) "C" * verticalGap1) :=
  c7RowHeight parentChildPair { id := "C", parents := ["P"] } (by decide)

/-- Claim C6 (amended).  With distinct ids, every person appears in
exactly one generation bucket (once in its own, never in another),
receives exactly one entry in the position map, and occupies at least
one slot of its row's placement sequence — but possibly more than one:
`c6Cex` shows a person re-pushed as the chosen partner of a later
member, so "exactly one slot" fails. -/
theorem c6Placement (members : List Member)
    (hn : (members.map (fun m1 => m1.id)).Nodup) (m : Member) (hm : m ∈ members) :
    (groupOf members (assignGenerations1 members)
        (genOf (assignGenerations1 members) m.id)).count m.id = 1 ∧
    (∀ gen, gen ≠ genOf (assignGenerations1 members) m.id →
      m.id ∉ groupOf members (assignGenerations1 members) gen) ∧
    1 ≤ (sortRow members (groupOf members (assignGenerations1 members)
        (genOf (assignGenerations1 members) m.id))).count m.id ∧
    ((computeLayout1 members).positions m.id).isSome = true := by
  refine ⟨?_, ?_, ?_, computeLayout1Covers members m hm⟩
  · unfold groupOf
    have hcomm : (members.filter (fun m1 =>
          genOf (assignGenerations1 members) m1.id
            = genOf (assignGenerations1 members) m.id)).map (fun m1 => m1.id)
        = (members.map (fun m1 => m1.id)).filter (fun q =>
            genOf (assignGenerations1 members) q
              = genOf (assignGenerations1 members) m.id) := by
      rw [List.filter_map]
      rfl
    rw [hcomm, List.count_filter (by simp)]
    exact List.count_eq_one_of_mem hn (List.mem_map.mpr ⟨m, hm, rfl⟩)
  · intro gen hgen hmem
    exact hgen ((groupOfGen members (assignGenerations1 members) gen m.id hmem).symm)
  · exact List.one_le_count_iff.mpr
      (sortRowCover members _ m.id (memGroupOf members _ m hm))

/-- Witness for `c6Placement` at the parent/child input. -/
theorem c6PlacementWitness :
    (groupOf parentChildPair (assignGenerations1 parentChildPair)
        (genOf (assignGenerations1 parentChildPair) "P")).count "P" = 1 ∧
    ((computeLayout1 parentChildPair).positions "P").isSome = true :=
  ⟨(c6Placement parentChildPair (by decide) { id := "P" } (by decide)).1,
   (c6Placement parentChildPair (by decide) { id := "P" } (by decide)).2.2.2⟩

/-- Claim C2 (amended).  Generation monotonicity
`generation[child] ≥ generation[parent] + 1` holds for every resolving
(parent, child) pair on inputs where every member has a nonempty id,
nobody lists partners, every parent reference resolves, and the
parents relation is acyclic — acyclicity witnessed by a depth function
`d` with `d(root) = 0` and `d(child) = d(parent) + 1`; the traversal
then records exactly `d`, and the child sits exactly one level below
the parent.  In general the property fails (`c2Cex`): a child first
reached by a shallower path (for instance through a partner edge)
keeps that generation, because this variant never updates a processed
person. -/
theorem c2Monotonic (members : List Member) (d : String → Nat)
    (hne : ∀ m ∈ members, m.id ≠ "")
    (hnp : ∀ m ∈ members, m.partners = [])
    (hres : ∀ m ∈ members, ∀ pid ∈ m.parents, ∃ pm ∈ members, pm.id = pid)
    (hd0 : ∀ m ∈ members, m.parents = [] → d m.id = 0)
    (hd1 : ∀ m ∈ members, ∀ pid ∈ m.parents, d m.id = d pid + 1)
    (parent child : Member) (hpm : parent ∈ members) (hcm : child ∈ members)
    (hrel : parent.id ∈ child.parents) :
    (assignGenerations1 members).generations parent.id = some (d parent.id) ∧
    (assignGenerations1 members).generations child.id = some (d parent.id + 1) ∧
    genOf (assignGenerations1 members) parent.id + 1
      ≤ genOf (assignGenerations1 members) child.id := by
  have hv := forestValues members d hne hnp hres hd0 hd1
  have hp := hv parent hpm
  have hc := hv child hcm
  have hstep : d child.id = d parent.id + 1 := hd1 child hcm parent.id hrel
  refine ⟨hp, by rw [hc, hstep], ?_⟩
  unfold genOf
  rw [hp, hc, hstep]
  simp

/-- Witness for `c2Monotonic` at the parent/child input with the
depth function mapping `C` to 1 and everything else to 0. -/
theorem c2MonotonicWitness :
    (assignGenerations1 parentChildPair).generations "P" = some 0 ∧
    (assignGenerations1 parentChildPair).generations "C" = some 1 ∧
    genOf (assignGenerations1 parentChildPair) "P" + 1
      ≤ genOf (assignGenerations1 parentChildPair) "C" :=
  c2Monotonic parentChildPair (fun q => if q = "C" then 1 else 0)
    (by decide) (by decide) (by decide) (by decide) (by decide)
    { id := "P" } { id := "C", parents := ["P"] }
    (by decide) (by decide) (by decide)

/-- Claim C5 (amended).  Partner co-generation holds when no person
records parents (the only depth-changing edges): everyone is then
assigned generation 0, so every partner pair present in the input has
equal generations.  In general the property fails (`c5Cex`): a partner
already fixed at a different depth through a parent edge keeps it,
because partner edges reaching an already-processed person are
skipped. -/
theorem c5PartnerZero (members : List Member)
    (hp : ∀ m ∈ members, m.parents = [])
    (a b : Member) (ha : a ∈ members) (hb : b ∈ members)
    (hia : a.id ≠ "") (hib : b.id ≠ "")
    (_hlink : b.id ∈ a.partners ∨ a.id ∈ b.partners) :
    (assignGenerations1 members).generations a.id
      = (assignGenerations1 members).generations b.id ∧
    (assignGenerations1 members).generations a.id = some 0 := by
  have hsome : ∀ (m : Member), m ∈ members → m.id ≠ "" →
      (assignGenerations1 members).generations m.id = some 0 := by
    intro m hm him
    have h1 := assignGenerations1Entry members m.id
      (assignGenerations1Processed members m hm him)
    rcases assignGenerations1Zero members hp m.id with h | h
    · rw [h] at h1
      simp at h1
    · exact h
  rw [hsome a ha hia, hsome b hb hib]
  exact ⟨rfl, rfl⟩

/-- Witness for `c5PartnerZero`: two parentless partners. -/
theorem c5PartnerZeroWitness :
    (assignGenerations1 [{ id := "A", partners := ["B"] }, { id := "B" }]).generations "A"
      = (assignGenerations1 [{ id := "A", partners := ["B"] }, { id := "B" }]).generations "B" ∧
    (assignGenerations1 [{ id := "A", partners := ["B"] }, { id := "B" }]).generations "A"
      = some 0 :=
  c5PartnerZero [{ id := "A", partners := ["B"] }, { id := "B" }]
    (by decide) { id := "A", partners := ["B"] } { id := "B" }
    (by decide) (by decide) (by decide) (by decide) (Or.inl (by decide))

/-- Claim C1 (amended).  When the traversal reaches an
already-processed person carrying generation `gen`, the
TreeVisualization variant leaves the state unchanged (first assignment
wins), while the FamilyNode variant raises the stored generation to
`max stored gen` without re-propagating to the person's descendants.
Neither variant computes the maximum over all graph-theoretic reaching
paths: `c1Cex` shows a child of two parents at different depths kept at
the first reaching path's level in the TreeVisualization variant. -/
theorem c1Revisit (members : List Member) (fuel : Nat) (st : GenState)
    (id : String) (gen v : Nat)
    (hp : st.processed id = true) (hv : st.generations id = some v) :
    assignGen1 members (fuel + 1) st id gen = st ∧
    (assignGen2 members (fuel + 1) st id gen).generations id = some (max v gen) := by
  constructor
  · simp only [assignGen1, decide_eq_true_eq]
    rw [if_pos (Or.inr hp)]
  · simp only [assignGen2]
    rw [if_pos hp, hv]
    show (if v < gen then st.setGen id gen else st).generations id = some (max v gen)
    by_cases hlt : v < gen
    · rw [if_pos hlt]
      simp [GenState.setGen, Nat.max_eq_right (Nat.le_of_lt hlt)]
    · rw [if_neg hlt]
      rw [hv, Nat.max_eq_left (Nat.le_of_not_lt hlt)]

/-- Witness for `c1Revisit` on a processed state of the parent/child
input. -/
theorem c1RevisitWitness :
    assignGen1 parentChildPair 1 (assignGenerations1 parentChildPair) "P" 5
      = assignGenerations1 parentChildPair ∧
    (assignGen2 parentChildPair 1 (assignGenerations1 parentChildPair) "P" 5).generations "P"
      = some (max 0 5) :=
  c1Revisit parentChildPair 0 (assignGenerations1 parentChildPair) "P" 5 0
    (by decide) (by decide)

/-- Claim C4 (amended).  In the FamilyNode variant every non-empty row
is centered on the container midline: the leftmost slot's x plus the
rightmost slot's x plus nodeWidth equals the container width for every
row, whatever its length.  In the TreeVisualization variant rows are
instead left-aligned: the leftmost slot always sits at `padding`, and
the row sums differ between rows of different lengths (`c4Cex`). -/
theorem c4Centering (members : List Member) (w : ℚ) (pr : Nat × List String)
    (_hpr : pr ∈ rowsOf members (assignGenerations2 members)) (hne : pr.2 ≠ []) :
    slotX2 w pr.2.length 0 + (slotX2 w pr.2.length (pr.2.length - 1) + (nodeWidth2 : ℚ))
      = w ∧
    slotX1 0 = padding1 := by
  constructor
  · have hn : 1 ≤ pr.2.length := List.length_pos.mpr hne
    unfold slotX2 rowWidth2
    have hcast : ((pr.2.length - 1 : Nat) : ℚ) = (pr.2.length : ℚ) - 1 := by
      push_cast [Nat.cast_sub hn]
      ring
    rw [hcast]
    unfold nodeWidth2 horizontalGap2
    push_cast
    ring
  · simp [slotX1]

/-- Witness for `c4Centering` at the two-row input with width 800. -/
theorem c4CenteringWitness :
    slotX2 800 2 0 + (slotX2 800 2 1 + (nodeWidth2 : ℚ)) = 800 ∧
    slotX1 0 = padding1 := by
  have h := c4Centering twoRootsOneChild 800 (0, ["P1", "P2"]) (by decide)
    (by decide)
  simpa using h

/-- Claim C8 (amended).  With distinct ids, for members `a` before `b`
in input order (indices `i < j`), both placed: the number of emitted
connectors between `a` and `b` equals the number of occurrences of
`b`'s id in `a`'s partners list — an unordered pair gets exactly one
connector exactly when the input-earlier partner lists the later one
exactly once, and zero when only the later lists the earlier
(`c8Cex`); no connector is emitted in the reverse direction; and every
`a`-to-`b` connector runs from the right edge of `a`'s node to the
left edge of `b`'s node, edges chosen by input order, not by placement
side. -/
theorem c8Connectors (members : List Member)
    (hn : (members.map (fun m1 => m1.id)).Nodup)
    (i j : Nat) (a b : Member) (hij : i < j)
    (hi : members[i]? = some a) (hj : members[j]? = some b)
    (hpa : ((computeLayout1 members).positions a.id).isSome = true)
    (hpb : ((computeLayout1 members).positions b.id).isSome = true) :
    (partnerConnectors1 members).countP
        (fun c => decide (c.a = a.id ∧ c.b = b.id)) = a.partners.count b.id ∧
    (partnerConnectors1 members).countP
        (fun c => decide (c.a = b.id ∧ c.b = a.id)) = 0 ∧
    (∀ c ∈ partnerConnectors1 members, c.a = a.id → c.b = b.id →
      ∃ qa qb, (computeLayout1 members).positions a.id = some qa ∧
        (computeLayout1 members).positions b.id = some qb ∧
        c.x1 = qa.1 + nodeWidth1 ∧ c.x2 = qb.1) := by
  obtain ⟨pa, hpaeq⟩ := Option.isSome_iff_exists.mp hpa
  obtain ⟨pb, hpbeq⟩ := Option.isSome_iff_exists.mp hpb
  have hilen : i < members.length := (List.getElem?_eq_some_iff.mp hi).1
  have hjlen : j < members.length := (List.getElem?_eq_some_iff.mp hj).1
  have huniq : ∀ (k : Nat) (mk : Member) (z : Member) (iz : Nat),
      members[iz]? = some z → iz < members.length →
      members[k]? = some mk → mk.id = z.id → k = iz ∧ mk = z := by
    intro k mk z iz hz hzlen hk hkid
    have h1 : (members.map (fun m1 => m1.id))[k]? = some z.id := by
      rw [List.getElem?_map, hk]
      simp [hkid]
    have h2 : (members.map (fun m1 => m1.id))[iz]? = some z.id := by
      rw [List.getElem?_map, hz]
      simp
    have hklen : k < (members.map (fun m1 => m1.id)).length :=
      (List.getElem?_eq_some_iff.mp h1).1
    have hke : k = iz := List.getElem?_inj hklen hn (h1.trans h2.symm)
    subst hke
    exact ⟨rfl, Option.some.inj (hk.symm.trans hz)⟩
  have hfb : members.findIdx (fun x => decide (x.id = b.id)) = j := by
    refine findIdxSpec _ members j b hj (by simp) ?_
    intro k hk x hx
    by_cases hxb : x.id = b.id
    · obtain ⟨hke, _⟩ := huniq k x b j hj hjlen hx hxb
      exact absurd hke (Nat.ne_of_lt hk)
    · simp [hxb]
  have hfa : members.findIdx (fun x => decide (x.id = a.id)) = i := by
    refine findIdxSpec _ members i a hi (by simp) ?_
    intro k hk x hx
    by_cases hxa : x.id = a.id
    · obtain ⟨hke, _⟩ := huniq k x a i hi hilen hx hxa
      exact absurd hke (Nat.ne_of_lt hk)
    · simp [hxa]
  have hflat : partnerConnectors1 members
      = (members.enum.map
          (memberConnectors1 members (computeLayout1 members).positions)).flatten := rfl
  have henum : members.enum.Nodup := by
    have h0 := List.nodup_range members.length
    rw [← List.enum_map_fst members] at h0
    exact List.Nodup.of_map _ h0
  refine ⟨?_, ?_, ?_⟩
  · have hzero1 : ∀ q ∈ members.enum, q ≠ (i, a) →
        (memberConnectors1 members (computeLayout1 members).positions q).countP
          (fun c => decide (c.a = a.id ∧ c.b = b.id)) = 0 := by
      intro q hq hqne
      rw [List.countP_eq_zero]
      intro c hc
      obtain ⟨mp0, pp0, pid0, hmp0, hmem, hpp0, hguard, hceq⟩ :=
        (memberConnectorsMem members (computeLayout1 members).positions q c).mp hc
      simp only [decide_eq_true_eq, not_and]
      intro hca _
      have hqa : q.2.id = a.id := by rw [hceq] at hca; exact hca
      obtain ⟨hk, hmk⟩ := huniq q.1 q.2 a i hi hilen
        (List.mem_enum_iff_getElem?.mp hq) hqa
      apply hqne
      rcases q with ⟨q1, q2⟩
      simp only at hk hmk
      rw [hk, hmk]
    have hval1 : (memberConnectors1 members (computeLayout1 members).positions
        (i, a)).countP (fun c => decide (c.a = a.id ∧ c.b = b.id))
        = a.partners.count b.id := by
      unfold memberConnectors1
      simp only [hpaeq]
      rw [List.countP_filterMap, List.count_eq_countP]
      refine List.countP_congr ?_
      intro x _
      by_cases hxb : x = b.id
      · subst hxb
        simp only [hpbeq, hfb]
        rw [if_pos hij]
        simp
      · cases hppx : (computeLayout1 members).positions x with
        | none => simp [hxb]
        | some pp =>
          simp only
          by_cases hg : i < members.findIdx (fun y => decide (y.id = x))
          · rw [if_pos hg]
            simp [hxb]
          · rw [if_neg hg]
            simp [hxb]
    have hsum := sumMapSingle members.enum
      (fun q => (memberConnectors1 members (computeLayout1 members).positions q).countP
        (fun c => decide (c.a = a.id ∧ c.b = b.id))) (i, a) henum
      (List.mem_enum_iff_getElem?.mpr hi) hzero1
    rw [hflat, List.countP_flatten, List.map_map]
    exact hsum.trans hval1
  · rw [hflat, List.countP_flatten, List.map_map]
    refine List.sum_eq_zero ?_
    intro x hx
    obtain ⟨q, hq, rfl⟩ := List.mem_map.mp hx
    show (memberConnectors1 members (computeLayout1 members).positions q).countP
      (fun c => decide (c.a = b.id ∧ c.b = a.id)) = 0
    rw [List.countP_eq_zero]
    intro c hc
    obtain ⟨mp0, pp0, pid0, hmp0, hmem, hpp0, hguard, hceq⟩ :=
      (memberConnectorsMem members (computeLayout1 members).positions q c).mp hc
    simp only [decide_eq_true_eq, not_and]
    intro hcb hca
    have hqb : q.2.id = b.id := by rw [hceq] at hcb; exact hcb
    have hpid : pid0 = a.id := by rw [hceq] at hca; exact hca
    obtain ⟨hk, _⟩ := huniq q.1 q.2 b j hj hjlen
      (List.mem_enum_iff_getElem?.mp hq) hqb
    rw [hpid, hfa, hk] at hguard
    omega
  · intro c hc hca hcb
    rw [hflat] at hc
    obtain ⟨E, hE, hcE⟩ := List.mem_flatten.mp hc
    obtain ⟨q, _, rfl⟩ := List.mem_map.mp hE
    obtain ⟨mp0, pp0, pid0, hmp0, hmem, hpp0, hguard, hceq⟩ :=
      (memberConnectorsMem members (computeLayout1 members).positions q c).mp hcE
    have hqa : q.2.id = a.id := by rw [hceq] at hca; exact hca
    have hpidb : pid0 = b.id := by rw [hceq] at hcb; exact hcb
    refine ⟨mp0, pp0, ?_, ?_, ?_, ?_⟩
    · rw [← hqa]
      exact hmp0
    · rw [← hpidb]
      exact hpp0
    · rw [hceq]
    · rw [hceq]

/-- Witness for `c8Connectors` on the mutual partner pair. -/
theorem c8ConnectorsWitness :
    (partnerConnectors1 mutualPartners).countP
        (fun c => decide (c.a = "A" ∧ c.b = "B")) = 1 ∧
    (partnerConnectors1 mutualPartners).countP
        (fun c => decide (c.a = "B" ∧ c.b = "A")) = 0 := by
  have h := c8Connectors mutualPartners (by decide) 0 1
    { id := "A", partners := ["B"] } { id := "B", partners := ["A"] }
    (by decide) (by decide) (by decide) (by decide) (by decide)
  exact ⟨h.1.trans (by decide), h.2.1⟩

/-- Claim C9 (confirmed).  On the empty person list the layout engine
returns an empty position map and a zero bounding box, and (being a
total function) raises nothing. -/
theorem c9EmptyLayout :
    computeLayout1 [] = ⟨fun _ => none, 0, 0⟩ := by
  rfl

/-- Claim C10 (confirmed).  In `partnerOfDeeper` the parentless member
`A` (a root candidate) is assigned generation 1 > 0: it is first
reached as the partner of `X` (generation 1) during root `B`'s
traversal, before `A`'s own root-seeded traversal runs, and the
already-processed check then keeps that deeper value. -/
theorem c10RootBelowTop :
    (∃ m ∈ partnerOfDeeper, m.id = "A" ∧ m.parents = []) ∧
    (assignGenerations1 partnerOfDeeper).generations "A" = some 1 ∧
    (assignGenerations2 partnerOfDeeper).generations "A" = some 1 := by
  decide
